import Mathlib

/-!
Verification development for the `cfg` configuration scanner.

The scanner locates labeled constructs in line-oriented text:
`label := value` pairs, `label < ... >` raw blocks, `label [ ... ]`
line lists, `label { ... }` item lists, and `label ( ... )` recursive
data containers whose interior lines must carry one leading tab.

The Go code drives everything with anchored regular expressions.  Each
regular expression here is embedded as a deterministic scanner over
`List Char`.  This is faithful because every backtracking point of the
original patterns is over disjoint character classes (word characters,
spaces, commas, the opener and closer characters and the newline are
pairwise distinct), so greedy runs never need to be shortened and lazy
captures stop at the first position where the trailing context matches.
-/

/-- Word characters of the `\w` class: ASCII letters, digits, underscore. -/
def isWordChar (c : Char) : Bool :=
  c.isAlpha || c.isDigit || c = '_'

/-- The four construct opener characters recognized by `findConfigStRex`. -/
def isOpenerChar (c : Char) : Bool :=
  c = '<' || c = '[' || c = '{' || c = '('

/-- The four closer characters recognized by `findConfigEnRex`. -/
def isCloserChar (c : Char) : Bool :=
  c = '>' || c = ']' || c = '}' || c = ')'

/-- The `matching` map of cfg.go: opener character to required closer. -/
def matching (c : Char) : Char :=
  if c = '<' then '>'
  else if c = '[' then ']'
  else if c = '{' then '}'
  else ')'

/-- Label path composition as done inline in `handleConfigData`:
the parent path, a colon, and the label, except that an empty parent
path contributes nothing. -/
def compose (lp l : List Char) : List Char :=
  if lp = [] then l else lp ++ ':' :: l

/-- Split a text at its first newline: the line before it and the text
after it, or `none` when the text has no newline at all. -/
def breakLine : List Char → Option (List Char × List Char)
  | [] => none
  | c :: r =>
    if c = '\n' then some ([], r) else
    match breakLine r with
    | some (l, rest) => some (c :: l, rest)
    | none => none

/-- Split a text on every newline.  The final segment is the trailing
text after the last newline (empty when the text ends in a newline). -/
def splitOnNL : List Char → List (List Char)
  | [] => [[]]
  | c :: r =>
    if c = '\n' then [] :: splitOnNL r else
    match splitOnNL r with
    | [] => [[c]]
    | l :: ls => (c :: l) :: ls

/-- Whitespace characters for trimming, as in Go's strings.TrimSpace
restricted to the characters that occur in configuration text. -/
def isWS (c : Char) : Bool :=
  c = ' ' || c = '\t' || c = '\n' || c = '\r'

/-- Trim whitespace from both ends of a line. -/
def trimWS (l : List Char) : List Char :=
  ((l.dropWhile isWS).reverse.dropWhile isWS).reverse

/-- Join a list of labels with colons, the rendering of a label path. -/
def joinColon : List (List Char) → List Char
  | [] => []
  | [l] => l
  | l :: ls => l ++ ':' :: joinColon ls

/-- A line acceptable inside a `(`-delimited data container: blank, or
carrying a leading tab. -/
def goodLine (l : List Char) : Bool :=
  l = [] || l.head? = some '\t'

/-- Modelled from the spec: the line cleaning shared by the Lines and
Items extractors of the external `txt` package (not in this repository).
Each line is trimmed of surrounding whitespace; lines that are then
empty, and lines starting with `#`, are discarded. -/
def cleanLines (t : List Char) : List (List Char) :=
  ((splitOnNL t).map trimWS).filter (fun l => !(l = [] || l.head? = some '#'))

/-- Accumulating splitter for whitespace-run separated fields. -/
def wsFieldsAux : List Char → List Char → List (List Char)
  | [], [] => []
  | [], acc => [acc.reverse]
  | c :: r, acc =>
    if isWS c then
      if acc = [] then wsFieldsAux r [] else acc.reverse :: wsFieldsAux r []
    else wsFieldsAux r (c :: acc)

/-- Split a line into fields separated by runs of whitespace. -/
def wsFields (l : List Char) : List (List Char) :=
  wsFieldsAux l []

/-- Split a line at every comma. -/
def splitOnComma : List Char → List (List Char)
  | [] => [[]]
  | c :: r =>
    if c = ',' then [] :: splitOnComma r else
    match splitOnComma r with
    | [] => [[c]]
    | l :: ls => (c :: l) :: ls

/-- Modelled from the spec: `txt.ListToStringSlice` of the external
`txt` package (not in this repository).  The interior text is split
into lines, surrounding whitespace is trimmed from each line, and blank
lines and `#`-comment lines are dropped. -/
def ListToStringSlice (t : List Char) : List (List Char) :=
  cleanLines t

/-- Modelled from the spec: `txt.SepListToStringSlice` of the external
`txt` package (not in this repository).  The same line cleaning as
`ListToStringSlice` is applied first; then each surviving line is split
by the active separator: on runs of whitespace when the separator is a
space, and at commas (each field trimmed) when it is a comma.  The
spec's end-to-end scenario 4 and this repository's tests fix the
splitting as per-line. -/
def SepListToStringSlice (t : List Char) (sep : List Char) : List (List Char) :=
  (cleanLines t).flatMap
    (fun l => if sep = [','] then (splitOnComma l).map trimWS else wsFields l)

/-- Attempt of `findConfigValueRex` at one line start: a nonempty run
of word characters, optional spaces, `:=`, optional spaces, then the
value running to the line's newline with trailing spaces stripped.
Returns the label, the value and the text after the newline. -/
def matchValueAt (s : List Char) : Option (List Char × List Char × List Char) :=
  if s.takeWhile isWordChar = [] then none else
  match (s.dropWhile isWordChar).dropWhile (fun c => c = ' ') with
  | c1 :: c2 :: r3 =>
    if c1 = ':' ∧ c2 = '=' then
      match breakLine (r3.dropWhile (fun c => c = ' ')) with
      | some (line, rest) =>
        some (s.takeWhile isWordChar,
          (line.reverse.dropWhile (fun c => c = ' ')).reverse, rest)
      | none => none
    else none
  | _ => none

/-- Scan the remaining line starts (the positions right after each
newline) for a value match. -/
def findConfigValueAux : List Char → Option (List Char × List Char × List Char)
  | [] => none
  | c :: r =>
    if c = '\n' then
      match matchValueAt r with
      | some x => some x
      | none => findConfigValueAux r
    else findConfigValueAux r

/-- The embedding of `findConfigValueRex`: the earliest line start
whose line matches `label := value`. -/
def findConfigValue (s : List Char) : Option (List Char × List Char × List Char) :=
  match matchValueAt s with
  | some x => some x
  | none => findConfigValueAux s

/-- Fuel-driven iteration of `findConfigValue`, as `HandleConfigValues`
iterates its regular expression on the remaining-text capture. -/
def scanValuesFuel : Nat → List Char → List (List Char × List Char)
  | 0, _ => []
  | n + 1, s =>
    match findConfigValue s with
    | some (l, v, rest) => (l, v) :: scanValuesFuel n rest
    | none => []

/-- The embedding of `HandleConfigValues`: the sequence of
`(label, value)` pairs delivered to the callback, in order. -/
def scanValues (s : List Char) : List (List Char × List Char) :=
  scanValuesFuel s.length s

/-- The closer search of `findConfigEnRex` and of the closing part of
the Block, Lines and Items patterns: the lazy interior capture stops at
the first newline that is immediately followed by an accepted closer
character which itself ends its line (next character a newline, or end
of text).  Returns the interior, the closer character found, and the
text following the closer (which keeps its leading newline, as the
remaining-text capture groups of the patterns do). -/
def findAnyCloserCore (p : Char → Bool) : List Char → Option (List Char × Char × List Char)
  | [] => none
  | c :: r =>
    if c = '\n' then
      match r with
      | c2 :: r2 =>
        if p c2 = true ∧ (r2 = [] ∨ r2.head? = some '\n') then
          some ([], c2, r2)
        else
          match findAnyCloserCore p r with
          | some (i, cc, a) => some (c :: i, cc, a)
          | none => none
      | [] => none
    else
      match findAnyCloserCore p r with
      | some (i, cc, a) => some (c :: i, cc, a)
      | none => none

/-- The embedding of `findConfigEnRex`: interior up to the first line
holding exactly one of the four closer characters. -/
def findEnd (s : List Char) : Option (List Char × Char × List Char) :=
  findAnyCloserCore isCloserChar s

/-- A closer line occurs inside a text: a newline immediately followed
by the closer character which ends its line there (next character a
newline, or nothing further).  Mirrors the stopping test of
`findAnyCloserCore` position by position. -/
def hasCloserLine (close : Char) : List Char → Bool
  | [] => false
  | c :: r =>
    if c = '\n' then
      match r with
      | c2 :: r2 =>
        if c2 = close ∧ (r2 = [] ∨ r2.head? = some '\n') then true
        else hasCloserLine close r
      | [] => false
    else hasCloserLine close r

/-- Attempt of `findConfigBlockRex` at one line start: a nonempty label,
optional spaces, then a `<` directly followed by a newline, then the
interior running to the first line holding exactly `>`. -/
def matchBlockAt (s : List Char) : Option (List Char × List Char × List Char) :=
  if s.takeWhile isWordChar = [] then none else
  match (s.dropWhile isWordChar).dropWhile (fun c => c = ' ') with
  | c1 :: c2 :: r3 =>
    if c1 = '<' ∧ c2 = '\n' then
      match findAnyCloserCore (fun c => c = '>') r3 with
      | some (i, _, rest) => some (s.takeWhile isWordChar, i, rest)
      | none => none
    else none
  | _ => none

/-- Scan the remaining line starts for a block match. -/
def findConfigBlockAux : List Char → Option (List Char × List Char × List Char)
  | [] => none
  | c :: r =>
    if c = '\n' then
      match matchBlockAt r with
      | some x => some x
      | none => findConfigBlockAux r
    else findConfigBlockAux r

/-- The embedding of `findConfigBlockRex`. -/
def findConfigBlock (s : List Char) : Option (List Char × List Char × List Char) :=
  match matchBlockAt s with
  | some x => some x
  | none => findConfigBlockAux s

/-- Fuel-driven iteration of `findConfigBlock`. -/
def scanBlocksFuel : Nat → List Char → List (List Char × List Char)
  | 0, _ => []
  | n + 1, s =>
    match findConfigBlock s with
    | some (l, b, rest) => (l, b) :: scanBlocksFuel n rest
    | none => []

/-- The embedding of `HandleConfigBlocks`: the sequence of
`(label, blockText)` pairs delivered to the callback, in order. -/
def scanBlocks (s : List Char) : List (List Char × List Char) :=
  scanBlocksFuel s.length s

/-- Attempt of `findConfigItemsRex` at one line start: a nonempty
label, optional spaces, optional commas, optional spaces, then a `\x7b`
directly followed by a newline, then the interior running to the first
line holding exactly `\x7d`.  The Boolean records whether a comma
separator marker was present. -/
def matchItemsAt (s : List Char) : Option (List Char × Bool × List Char × List Char) :=
  if s.takeWhile isWordChar = [] then none else
  let r2 := (s.dropWhile isWordChar).dropWhile (fun c => c = ' ')
  match (r2.dropWhile (fun c => c = ',')).dropWhile (fun c => c = ' ') with
  | c1 :: c2 :: r5 =>
    if c1 = '{' ∧ c2 = '\n' then
      match findAnyCloserCore (fun c => c = '}') r5 with
      | some (i, _, rest) =>
        some (s.takeWhile isWordChar, !(r2.takeWhile (fun c => c = ',')).isEmpty, i, rest)
      | none => none
    else none
  | _ => none

/-- Scan the remaining line starts for an items match. -/
def findConfigItemsAux : List Char → Option (List Char × Bool × List Char × List Char)
  | [] => none
  | c :: r =>
    if c = '\n' then
      match matchItemsAt r with
      | some x => some x
      | none => findConfigItemsAux r
    else findConfigItemsAux r

/-- The embedding of `findConfigItemsRex`. -/
def findConfigItems (s : List Char) : Option (List Char × Bool × List Char × List Char) :=
  match matchItemsAt s with
  | some x => some x
  | none => findConfigItemsAux s

/-- Fuel-driven iteration of `findConfigItems`, applying the separator
defaulting of `HandleConfigItems`: a space unless the comma marker was
present. -/
def scanItemsFuel : Nat → List Char → List (List Char × List (List Char))
  | 0, _ => []
  | n + 1, s =>
    match findConfigItems s with
    | some (l, comma, i, rest) =>
      (l, SepListToStringSlice i (if comma then [','] else [' '])) :: scanItemsFuel n rest
    | none => []

/-- The embedding of `HandleConfigItems`: the sequence of
`(label, itemList)` pairs delivered to the callback, in order. -/
def scanItems (s : List Char) : List (List Char × List (List Char)) :=
  scanItemsFuel s.length s

/-- Attempt of `findConfigStRex` at one line start: a nonempty label,
optional spaces, optional commas, optional spaces, one of the four
opener characters, optional spaces, then the newline ending the opener
line.  Returns the label, whether a comma marker was present, the
opener character, and the text after the opener line. -/
def matchOpenerAt (s : List Char) : Option (List Char × Bool × Char × List Char) :=
  if s.takeWhile isWordChar = [] then none else
  let r2 := (s.dropWhile isWordChar).dropWhile (fun c => c = ' ')
  match (r2.dropWhile (fun c => c = ',')).dropWhile (fun c => c = ' ') with
  | c :: r5 =>
    if isOpenerChar c then
      match r5.dropWhile (fun c => c = ' ') with
      | c2 :: r6 =>
        if c2 = '\n' then
          some (s.takeWhile isWordChar, !(r2.takeWhile (fun c => c = ',')).isEmpty, c, r6)
        else none
      | [] => none
    else none
  | [] => none

/-- Scan the remaining line starts for a construct opener. -/
def findConfigStAux : List Char → Option (List Char × Bool × Char × List Char)
  | [] => none
  | c :: r =>
    if c = '\n' then
      match matchOpenerAt r with
      | some x => some x
      | none => findConfigStAux r
    else findConfigStAux r

/-- The embedding of `findConfigStRex`: the earliest line start opening
one of the four constructs. -/
def findConfigSt (s : List Char) : Option (List Char × Bool × Char × List Char) :=
  match matchOpenerAt s with
  | some x => some x
  | none => findConfigStAux s

/-- The one error value of cfg.go, `ErrIllegalDataBlock`. -/
inductive CfgError where
  | illegalDataBlock
deriving DecidableEq, Repr

/-- State machine behind `removeLeadingTabs`.  The Boolean is true at a
line start.  At a line start, a newline is kept as a blank line, a tab
is consumed and the rest of its line copied, and anything else is the
illegal-data-block error; a line opened by a tab must reach a newline
before the text ends. -/
def rltAux : List Char → Bool → Except CfgError (List Char)
  | [], atStart => if atStart then .ok [] else .error .illegalDataBlock
  | c :: r, atStart =>
    if c = '\n' then
      match rltAux r true with
      | .ok out => .ok ('\n' :: out)
      | .error e => .error e
    else if atStart then
      if c = '\t' then rltAux r false else .error .illegalDataBlock
    else
      match rltAux r false with
      | .ok out => .ok (c :: out)
      | .error e => .error e

/-- The embedding of `removeLeadingTabs`: strip one leading tab from
every line, keeping blank lines, and fail with `ErrIllegalDataBlock`
when a nonblank line has no leading tab or a line is unterminated. -/
def removeLeadingTabs (src : List Char) : Except CfgError (List Char) :=
  rltAux src true

/-- The `ConfigType` enumeration of cfg.go. -/
inductive ConfigType where
  | Block
  | Lines
  | Items
  | Value
deriving DecidableEq, Repr

/-- One callback invocation of `handleConfigData`: the config type, the
composed label path, and the payload slice. -/
structure CfgRec where
  t : ConfigType
  label : List Char
  data : List (List Char)
deriving DecidableEq, Repr

/-- The Value pre-pass records of one iteration of `handleConfigData`:
every `label := value` pair found anywhere in the remaining text, with
the current label path composed in. -/
def valueRecs (lp s : List Char) : List CfgRec :=
  (scanValues s).map (fun p => ⟨ConfigType.Value, compose lp p.1, [p.2]⟩)

/-- One iteration of the `handleConfigData` loop, with the recursive
occurrences (the `(`-container recursion and the advance to the text
after the closer line) abstracted into `recur`.  Mirrors cfg.go line by
line: the Value pre-pass, the opener search, the three diagnosed local
failures that break the loop, and the dispatch on the opener. -/
def hcdStep (recur : List Char → List Char → List CfgRec × Option CfgError)
    (lp s : List Char) : List CfgRec × Option CfgError :=
  if s = [] then ([], none) else
  let vals := valueRecs lp s
  match findConfigSt s with
  | none => (vals, none)
  | some (lbl, comma, op, rest) =>
    match findEnd rest with
    | none => (vals, none)
    | some (interior, closeCh, after) =>
      if closeCh ≠ matching op then (vals, none)
      else if op ≠ '{' ∧ comma = true then (vals, none)
      else
        let lblPath := compose lp lbl
        if op = '(' then
          match removeLeadingTabs (interior ++ ['\n']) with
          | .error e => (vals, some e)
          | .ok st =>
            match recur lblPath st with
            | (rs, some e) => (vals ++ rs, some e)
            | (rs, none) =>
              match recur lp after with
              | (rs2, e2) => (vals ++ rs ++ rs2, e2)
        else if op = '<' then
          match recur lp after with
          | (rs2, e2) => (vals ++ ⟨ConfigType.Block, lblPath, [interior]⟩ :: rs2, e2)
        else if op = '[' then
          match recur lp after with
          | (rs2, e2) => (vals ++ ⟨ConfigType.Lines, lblPath, ListToStringSlice interior⟩ :: rs2, e2)
        else
          match recur lp after with
          | (rs2, e2) =>
            (vals ++ ⟨ConfigType.Items, lblPath,
              SepListToStringSlice interior (if comma then [','] else [' '])⟩ :: rs2, e2)

/-- Fuel-driven unrolling of the `handleConfigData` loop and recursion. -/
def hcdFuel : Nat → List Char → List Char → List CfgRec × Option CfgError
  | 0, _, _ => ([], none)
  | n + 1, lp, s => hcdStep (hcdFuel n) lp s

/-- The embedding of `handleConfigData`: the records delivered to the
callback, in order, together with the returned error value.  The length
of the remaining text strictly decreases at every loop iteration and at
every recursion into a dedented container interior, so the text's own
length is sufficient fuel. -/
def handleConfigData (lp s : List Char) : List CfgRec × Option CfgError :=
  hcdFuel s.length lp s

/-- The embedding of the exported `HandleConfigData`, which starts the
scan with the empty label path. -/
def HandleConfigData (s : List Char) : List CfgRec × Option CfgError :=
  handleConfigData [] s

/-- A record with its label path kept structured, as the spec's
LabelPath defines it: the ordered labels of the enclosing Data
containers, outermost first, and the record's own label, separate. -/
structure SpecRec where
  t : ConfigType
  chain : List (List Char)
  own : List Char
  data : List (List Char)
deriving DecidableEq, Repr

/-- Render a structured record: the LabelPath is the enclosing chain
followed by the record's own label, joined by colons. -/
def renderRec (r : SpecRec) : CfgRec :=
  ⟨r.t, joinColon (r.chain ++ [r.own]), r.data⟩

/-- The Value pre-pass with the structured path kept separate: the
enclosing chain, and the value's own label. -/
def specValueRecs (chain : List (List Char)) (s : List Char) : List SpecRec :=
  (scanValues s).map (fun p => ⟨ConfigType.Value, chain, p.1, [p.2]⟩)

/-- One iteration of the scan carrying the structured path: identical
control flow to `hcdStep`, but the chain of enclosing Data container
labels is kept as a list, extended by the container's label exactly
when a `(`-container is entered. -/
def hcdSpecStep (recur : List (List Char) → List Char → List SpecRec × Option CfgError)
    (chain : List (List Char)) (s : List Char) : List SpecRec × Option CfgError :=
  if s = [] then ([], none) else
  let vals := specValueRecs chain s
  match findConfigSt s with
  | none => (vals, none)
  | some (lbl, comma, op, rest) =>
    match findEnd rest with
    | none => (vals, none)
    | some (interior, closeCh, after) =>
      if closeCh ≠ matching op then (vals, none)
      else if op ≠ '{' ∧ comma = true then (vals, none)
      else
        if op = '(' then
          match removeLeadingTabs (interior ++ ['\n']) with
          | .error e => (vals, some e)
          | .ok st =>
            match recur (chain ++ [lbl]) st with
            | (rs, some e) => (vals ++ rs, some e)
            | (rs, none) =>
              match recur chain after with
              | (rs2, e2) => (vals ++ rs ++ rs2, e2)
        else if op = '<' then
          match recur chain after with
          | (rs2, e2) => (vals ++ ⟨ConfigType.Block, chain, lbl, [interior]⟩ :: rs2, e2)
        else if op = '[' then
          match recur chain after with
          | (rs2, e2) =>
            (vals ++ ⟨ConfigType.Lines, chain, lbl, ListToStringSlice interior⟩ :: rs2, e2)
        else
          match recur chain after with
          | (rs2, e2) =>
            (vals ++ ⟨ConfigType.Items, chain, lbl,
              SepListToStringSlice interior (if comma then [','] else [' '])⟩ :: rs2, e2)

/-- Fuel-driven unrolling of the structured-path scan. -/
def hcdSpecFuel : Nat → List (List Char) → List Char → List SpecRec × Option CfgError
  | 0, _, _ => ([], none)
  | n + 1, chain, s => hcdSpecStep (hcdSpecFuel n) chain s

/-- The structured-path scan: the records of the scan with each
record's enclosing-container labels and own label kept apart. -/
def specScanData (chain : List (List Char)) (s : List Char) : List SpecRec × Option CfgError :=
  hcdSpecFuel s.length chain s

/-- The length of a `dropWhile` result never exceeds the input's. -/
theorem length_dropWhile_le (p : Char → Bool) (l : List Char) :
    (l.dropWhile p).length ≤ l.length := by
  have h2 : (l.takeWhile p).length + (l.dropWhile p).length = l.length := by
    rw [← List.length_append, List.takeWhile_append_dropWhile]
  omega

/-- A successful `breakLine` decomposes its input at the first newline. -/
theorem breakLine_eq : ∀ {s l r : List Char}, breakLine s = some (l, r) →
    s = l ++ '\n' :: r := by
  intro s
  induction s with
  | nil => intro l r h; simp [breakLine] at h
  | cons c cs ih =>
    intro l r h
    simp only [breakLine] at h
    by_cases hc : c = '\n'
    · rw [if_pos hc] at h
      simp only [Option.some.injEq, Prod.mk.injEq] at h
      rw [← h.1, ← h.2, hc]
      rfl
    · rw [if_neg hc] at h
      cases hb : breakLine cs with
      | none => rw [hb] at h; simp at h
      | some p =>
        obtain ⟨l2, rest2⟩ := p
        rw [hb] at h
        simp only [Option.some.injEq, Prod.mk.injEq] at h
        rw [← h.1, ← h.2]
        simp [ih hb]

/-- A successful value match has a nonempty label and strictly shrinks
the remaining text. -/
theorem matchValueAt_some {s l v rest : List Char}
    (h : matchValueAt s = some (l, v, rest)) :
    l ≠ [] ∧ rest.length < s.length := by
  unfold matchValueAt at h
  by_cases h0 : s.takeWhile isWordChar = []
  · simp [h0] at h
  · rw [if_neg h0] at h
    rcases hm : (s.dropWhile isWordChar).dropWhile (fun c => c = ' ') with _ | ⟨c1, _ | ⟨c2, r3⟩⟩ <;>
      rw [hm] at h <;> dsimp only at h
    · simp at h
    · simp at h
    · by_cases h12 : c1 = ':' ∧ c2 = '='
      · rw [if_pos h12] at h
        cases hb : breakLine (r3.dropWhile (fun c => c = ' ')) with
        | none => rw [hb] at h; simp at h
        | some p =>
          obtain ⟨line, rest2⟩ := p
          rw [hb] at h
          simp only [Option.some.injEq, Prod.mk.injEq] at h
          obtain ⟨hl, _, hr⟩ := h
          refine ⟨by rw [← hl]; exact h0, ?_⟩
          have e1 : (s.takeWhile isWordChar).length + (s.dropWhile isWordChar).length = s.length := by
            rw [← List.length_append, List.takeWhile_append_dropWhile]
          have e0 : 0 < (s.takeWhile isWordChar).length := List.length_pos.mpr h0
          have e2 : ((s.dropWhile isWordChar).dropWhile (fun c => c = ' ')).length ≤
              (s.dropWhile isWordChar).length := length_dropWhile_le _ _
          have e3 : ((s.dropWhile isWordChar).dropWhile (fun c => c = ' ')).length = r3.length + 2 := by
            rw [hm]; simp
          have e4 : (r3.dropWhile (fun c => c = ' ')).length ≤ r3.length := length_dropWhile_le _ _
          have e5 : (r3.dropWhile (fun c => c = ' ')).length = line.length + 1 + rest2.length := by
            rw [breakLine_eq hb]; simp; omega
          rw [← hr]
          omega
      · rw [if_neg h12] at h; simp at h

/-- The line-start scan for values also shrinks the remaining text. -/
theorem findConfigValueAux_some : ∀ {s l v rest : List Char},
    findConfigValueAux s = some (l, v, rest) → l ≠ [] ∧ rest.length < s.length := by
  intro s
  induction s with
  | nil => intro l v rest h; simp [findConfigValueAux] at h
  | cons c cs ih =>
    intro l v rest h
    simp only [findConfigValueAux] at h
    by_cases hc : c = '\n'
    · rw [if_pos hc] at h
      cases hm : matchValueAt cs with
      | some x =>
        rw [hm] at h
        simp only [Option.some.injEq] at h
        subst h
        have := matchValueAt_some hm
        exact ⟨this.1, Nat.lt_trans this.2 (by simp)⟩
      | none =>
        rw [hm] at h
        have := ih h
        exact ⟨this.1, Nat.lt_trans this.2 (by simp)⟩
    · rw [if_neg hc] at h
      have := ih h
      exact ⟨this.1, Nat.lt_trans this.2 (by simp)⟩

/-- A successful `findConfigValue` has a nonempty label and strictly
shrinks the remaining text. -/
theorem findConfigValue_some {s l v rest : List Char}
    (h : findConfigValue s = some (l, v, rest)) : l ≠ [] ∧ rest.length < s.length := by
  unfold findConfigValue at h
  cases hm : matchValueAt s with
  | some x =>
    rw [hm] at h
    simp only [Option.some.injEq] at h
    subst h
    exact matchValueAt_some hm
  | none =>
    rw [hm] at h
    exact findConfigValueAux_some h

/-- Fuel beyond the text's length does not change `scanValuesFuel`. -/
theorem scanValuesFuel_congr : ∀ n m s, s.length ≤ n → s.length ≤ m →
    scanValuesFuel n s = scanValuesFuel m s := by
  intro n
  induction n with
  | zero =>
    intro m s hn _
    have : s = [] := List.length_eq_zero.mp (Nat.le_zero.mp hn)
    subst this
    cases m with
    | zero => rfl
    | succ m2 => rfl
  | succ n2 ih =>
    intro m s hn hm
    cases hf : findConfigValue s with
    | none =>
      cases m with
      | zero =>
        have : s = [] := List.length_eq_zero.mp (Nat.le_zero.mp hm)
        subst this; rfl
      | succ m2 => simp only [scanValuesFuel, hf]
    | some x =>
      obtain ⟨l, v, rest⟩ := x
      have hlt := (findConfigValue_some hf).2
      cases m with
      | zero =>
        have : s = [] := List.length_eq_zero.mp (Nat.le_zero.mp hm)
        subst this; simp at hlt
      | succ m2 =>
        simp only [scanValuesFuel, hf]
        rw [ih m2 rest (by omega) (by omega)]

/-- The one-step unfolding law of `scanValues`: one regular-expression
match, then the scan of its remaining-text capture. -/
theorem scanValues_unfold (s : List Char) : scanValues s =
    (match findConfigValue s with
     | some (l, v, rest) => (l, v) :: scanValues rest
     | none => []) := by
  cases hf : findConfigValue s with
  | none =>
    cases hs : s.length with
    | zero => unfold scanValues; rw [hs]; rfl
    | succ k => unfold scanValues; rw [hs]; simp only [scanValuesFuel, hf]
  | some x =>
    obtain ⟨l, v, rest⟩ := x
    have hlt := (findConfigValue_some hf).2
    cases hs : s.length with
    | zero => omega
    | succ k =>
      unfold scanValues
      rw [hs]
      simp only [scanValuesFuel, hf]
      rw [scanValuesFuel_congr k rest.length rest (by omega) (by omega)]

/-- A successful closer search decomposes its input: the interior, the
newline, the closer character, and the remaining text. -/
theorem findAnyCloserCore_eq {p : Char → Bool} : ∀ {s : List Char} {i2 : List Char} {c2 : Char} {a2 : List Char},
    findAnyCloserCore p s = some (i2, c2, a2) → s = i2 ++ '\n' :: c2 :: a2 := by
  intro s
  induction s with
  | nil => intro i2 c2 a2 h; simp [findAnyCloserCore] at h
  | cons c0 r ih =>
    intro i2 c2 a2 h
    simp only [findAnyCloserCore] at h
    by_cases hc : c0 = '\n'
    · rw [if_pos hc] at h
      cases r with
      | nil => simp at h
      | cons cx rx =>
        dsimp only at h
        by_cases ht : p cx = true ∧ (rx = [] ∨ rx.head? = some '\n')
        · rw [if_pos ht] at h
          simp only [Option.some.injEq, Prod.mk.injEq] at h
          rw [← h.1, ← h.2.1, ← h.2.2, hc]
          rfl
        · rw [if_neg ht] at h
          cases hr : findAnyCloserCore p (cx :: rx) with
          | none => rw [hr] at h; simp at h
          | some y =>
            obtain ⟨i3, c3, a3⟩ := y
            rw [hr] at h
            simp only [Option.some.injEq, Prod.mk.injEq] at h
            rw [← h.1, ← h.2.1, ← h.2.2]
            simp [ih hr, hc]
    · rw [if_neg hc] at h
      cases hr : findAnyCloserCore p r with
      | none => rw [hr] at h; simp at h
      | some y =>
        obtain ⟨i3, c3, a3⟩ := y
        rw [hr] at h
        simp only [Option.some.injEq, Prod.mk.injEq] at h
        rw [← h.1, ← h.2.1, ← h.2.2]
        simp [ih hr]

/-- A successful opener match has a nonempty label and strictly shrinks
the remaining text. -/
theorem matchOpenerAt_some {s lbl : List Char} {comma : Bool} {op : Char} {rest : List Char}
    (h : matchOpenerAt s = some (lbl, comma, op, rest)) :
    lbl ≠ [] ∧ rest.length < s.length := by
  unfold matchOpenerAt at h
  by_cases h0 : s.takeWhile isWordChar = []
  · simp [h0] at h
  · rw [if_neg h0] at h
    dsimp only at h
    rcases hm : ((((s.dropWhile isWordChar).dropWhile (fun c => c = ' ')).dropWhile
        (fun c => c = ',')).dropWhile (fun c => c = ' ')) with _ | ⟨c, r5⟩ <;>
      rw [hm] at h <;> dsimp only at h
    · simp at h
    · by_cases hop : isOpenerChar c = true
      · rw [if_pos hop] at h
        rcases hm2 : r5.dropWhile (fun c => c = ' ') with _ | ⟨c2, r6⟩ <;>
          rw [hm2] at h <;> dsimp only at h
        · simp at h
        · by_cases hnl : c2 = '\n'
          · rw [if_pos hnl] at h
            simp only [Option.some.injEq, Prod.mk.injEq] at h
            obtain ⟨hl, _, _, hr⟩ := h
            refine ⟨by rw [← hl]; exact h0, ?_⟩
            have e1 : (s.takeWhile isWordChar).length + (s.dropWhile isWordChar).length = s.length := by
              rw [← List.length_append, List.takeWhile_append_dropWhile]
            have e0 : 0 < (s.takeWhile isWordChar).length := List.length_pos.mpr h0
            have e2 : ((s.dropWhile isWordChar).dropWhile (fun c => c = ' ')).length ≤
                (s.dropWhile isWordChar).length := length_dropWhile_le _ _
            have e3 : (((s.dropWhile isWordChar).dropWhile (fun c => c = ' ')).dropWhile
                (fun c => c = ',')).length ≤
                ((s.dropWhile isWordChar).dropWhile (fun c => c = ' ')).length :=
              length_dropWhile_le _ _
            have e4 : ((((s.dropWhile isWordChar).dropWhile (fun c => c = ' ')).dropWhile
                (fun c => c = ',')).dropWhile (fun c => c = ' ')).length ≤
                (((s.dropWhile isWordChar).dropWhile (fun c => c = ' ')).dropWhile
                (fun c => c = ',')).length := length_dropWhile_le _ _
            have e5 : ((((s.dropWhile isWordChar).dropWhile (fun c => c = ' ')).dropWhile
                (fun c => c = ',')).dropWhile (fun c => c = ' ')).length = r5.length + 1 := by
              rw [hm]; simp
            have e6 : (r5.dropWhile (fun c => c = ' ')).length ≤ r5.length := length_dropWhile_le _ _
            have e7 : (r5.dropWhile (fun c => c = ' ')).length = r6.length + 1 := by
              rw [hm2]; simp
            rw [← hr]
            omega
          · rw [if_neg hnl] at h; simp at h
      · rw [if_neg hop] at h; simp at h

/-- The line-start scan for openers also shrinks the remaining text. -/
theorem findConfigStAux_some : ∀ {s lbl : List Char} {comma : Bool} {op : Char} {rest : List Char},
    findConfigStAux s = some (lbl, comma, op, rest) → lbl ≠ [] ∧ rest.length < s.length := by
  intro s
  induction s with
  | nil => intro lbl comma op rest h; simp [findConfigStAux] at h
  | cons c cs ih =>
    intro lbl comma op rest h
    simp only [findConfigStAux] at h
    by_cases hc : c = '\n'
    · rw [if_pos hc] at h
      cases hm : matchOpenerAt cs with
      | some x =>
        rw [hm] at h
        simp only [Option.some.injEq] at h
        subst h
        have := matchOpenerAt_some hm
        exact ⟨this.1, Nat.lt_trans this.2 (by simp)⟩
      | none =>
        rw [hm] at h
        have := ih h
        exact ⟨this.1, Nat.lt_trans this.2 (by simp)⟩
    · rw [if_neg hc] at h
      have := ih h
      exact ⟨this.1, Nat.lt_trans this.2 (by simp)⟩

/-- A successful `findConfigSt` has a nonempty label and strictly
shrinks the remaining text. -/
theorem findConfigSt_some {s lbl : List Char} {comma : Bool} {op : Char} {rest : List Char}
    (h : findConfigSt s = some (lbl, comma, op, rest)) : lbl ≠ [] ∧ rest.length < s.length := by
  unfold findConfigSt at h
  cases hm : matchOpenerAt s with
  | some x =>
    rw [hm] at h
    simp only [Option.some.injEq] at h
    subst h
    exact matchOpenerAt_some hm
  | none =>
    rw [hm] at h
    exact findConfigStAux_some h

/-- A successful block match has a nonempty label and strictly shrinks
the remaining text. -/
theorem matchBlockAt_some {s lbl blk rest : List Char}
    (h : matchBlockAt s = some (lbl, blk, rest)) :
    lbl ≠ [] ∧ rest.length < s.length := by
  unfold matchBlockAt at h
  by_cases h0 : s.takeWhile isWordChar = []
  · simp [h0] at h
  · rw [if_neg h0] at h
    rcases hm : (s.dropWhile isWordChar).dropWhile (fun c => c = ' ') with _ | ⟨c1, _ | ⟨c2, r3⟩⟩ <;>
      rw [hm] at h <;> dsimp only at h
    · simp at h
    · simp at h
    · by_cases h12 : c1 = '<' ∧ c2 = '\n'
      · rw [if_pos h12] at h
        cases hf : findAnyCloserCore (fun c => c = '>') r3 with
        | none => rw [hf] at h; simp at h
        | some y =>
          obtain ⟨i3, c3, a3⟩ := y
          rw [hf] at h
          simp only [Option.some.injEq, Prod.mk.injEq] at h
          obtain ⟨hl, _, hr⟩ := h
          refine ⟨by rw [← hl]; exact h0, ?_⟩
          have e1 : (s.takeWhile isWordChar).length + (s.dropWhile isWordChar).length = s.length := by
            rw [← List.length_append, List.takeWhile_append_dropWhile]
          have e0 : 0 < (s.takeWhile isWordChar).length := List.length_pos.mpr h0
          have e2 : ((s.dropWhile isWordChar).dropWhile (fun c => c = ' ')).length ≤
              (s.dropWhile isWordChar).length := length_dropWhile_le _ _
          have e3 : ((s.dropWhile isWordChar).dropWhile (fun c => c = ' ')).length = r3.length + 2 := by
            rw [hm]; simp
          have e4 : r3.length = i3.length + 2 + a3.length := by
            rw [findAnyCloserCore_eq hf]; simp; omega
          rw [← hr]
          omega
      · rw [if_neg h12] at h; simp at h

/-- The line-start scan for blocks also shrinks the remaining text. -/
theorem findConfigBlockAux_some : ∀ {s lbl blk rest : List Char},
    findConfigBlockAux s = some (lbl, blk, rest) → lbl ≠ [] ∧ rest.length < s.length := by
  intro s
  induction s with
  | nil => intro lbl blk rest h; simp [findConfigBlockAux] at h
  | cons c cs ih =>
    intro lbl blk rest h
    simp only [findConfigBlockAux] at h
    by_cases hc : c = '\n'
    · rw [if_pos hc] at h
      cases hm : matchBlockAt cs with
      | some x =>
        rw [hm] at h
        simp only [Option.some.injEq] at h
        subst h
        have := matchBlockAt_some hm
        exact ⟨this.1, Nat.lt_trans this.2 (by simp)⟩
      | none =>
        rw [hm] at h
        have := ih h
        exact ⟨this.1, Nat.lt_trans this.2 (by simp)⟩
    · rw [if_neg hc] at h
      have := ih h
      exact ⟨this.1, Nat.lt_trans this.2 (by simp)⟩

/-- A successful `findConfigBlock` strictly shrinks the remaining text. -/
theorem findConfigBlock_some {s lbl blk rest : List Char}
    (h : findConfigBlock s = some (lbl, blk, rest)) : lbl ≠ [] ∧ rest.length < s.length := by
  unfold findConfigBlock at h
  cases hm : matchBlockAt s with
  | some x =>
    rw [hm] at h
    simp only [Option.some.injEq] at h
    subst h
    exact matchBlockAt_some hm
  | none =>
    rw [hm] at h
    exact findConfigBlockAux_some h

/-- Fuel beyond the text's length does not change `scanBlocksFuel`. -/
theorem scanBlocksFuel_congr : ∀ n m s, s.length ≤ n → s.length ≤ m →
    scanBlocksFuel n s = scanBlocksFuel m s := by
  intro n
  induction n with
  | zero =>
    intro m s hn _
    have : s = [] := List.length_eq_zero.mp (Nat.le_zero.mp hn)
    subst this
    cases m with
    | zero => rfl
    | succ m2 => rfl
  | succ n2 ih =>
    intro m s hn hm
    cases hf : findConfigBlock s with
    | none =>
      cases m with
      | zero =>
        have : s = [] := List.length_eq_zero.mp (Nat.le_zero.mp hm)
        subst this; rfl
      | succ m2 => simp only [scanBlocksFuel, hf]
    | some x =>
      obtain ⟨l, b, rest⟩ := x
      have hlt := (findConfigBlock_some hf).2
      cases m with
      | zero =>
        have : s = [] := List.length_eq_zero.mp (Nat.le_zero.mp hm)
        subst this; simp at hlt
      | succ m2 =>
        simp only [scanBlocksFuel, hf]
        rw [ih m2 rest (by omega) (by omega)]

/-- The one-step unfolding law of `scanBlocks`. -/
theorem scanBlocks_unfold (s : List Char) : scanBlocks s =
    (match findConfigBlock s with
     | some (l, b, rest) => (l, b) :: scanBlocks rest
     | none => []) := by
  cases hf : findConfigBlock s with
  | none =>
    cases hs : s.length with
    | zero => unfold scanBlocks; rw [hs]; rfl
    | succ k => unfold scanBlocks; rw [hs]; simp only [scanBlocksFuel, hf]
  | some x =>
    obtain ⟨l, b, rest⟩ := x
    have hlt := (findConfigBlock_some hf).2
    cases hs : s.length with
    | zero => omega
    | succ k =>
      unfold scanBlocks
      rw [hs]
      simp only [scanBlocksFuel, hf]
      rw [scanBlocksFuel_congr k rest.length rest (by omega) (by omega)]

/-- A successful items match has a nonempty label and strictly shrinks
the remaining text. -/
theorem matchItemsAt_some {s lbl : List Char} {comma : Bool} {itx rest : List Char}
    (h : matchItemsAt s = some (lbl, comma, itx, rest)) :
    lbl ≠ [] ∧ rest.length < s.length := by
  unfold matchItemsAt at h
  by_cases h0 : s.takeWhile isWordChar = []
  · simp [h0] at h
  · rw [if_neg h0] at h
    dsimp only at h
    rcases hm : ((((s.dropWhile isWordChar).dropWhile (fun c => c = ' ')).dropWhile
        (fun c => c = ',')).dropWhile (fun c => c = ' ')) with _ | ⟨c1, _ | ⟨c2, r5⟩⟩ <;>
      rw [hm] at h <;> dsimp only at h
    · simp at h
    · simp at h
    · by_cases h12 : c1 = '{' ∧ c2 = '\n'
      · rw [if_pos h12] at h
        cases hf : findAnyCloserCore (fun c => c = '}') r5 with
        | none => rw [hf] at h; simp at h
        | some y =>
          obtain ⟨i3, c3, a3⟩ := y
          rw [hf] at h
          simp only [Option.some.injEq, Prod.mk.injEq] at h
          obtain ⟨hl, _, _, hr⟩ := h
          refine ⟨by rw [← hl]; exact h0, ?_⟩
          have e1 : (s.takeWhile isWordChar).length + (s.dropWhile isWordChar).length = s.length := by
            rw [← List.length_append, List.takeWhile_append_dropWhile]
          have e0 : 0 < (s.takeWhile isWordChar).length := List.length_pos.mpr h0
          have e2 : ((s.dropWhile isWordChar).dropWhile (fun c => c = ' ')).length ≤
              (s.dropWhile isWordChar).length := length_dropWhile_le _ _
          have e3 : (((s.dropWhile isWordChar).dropWhile (fun c => c = ' ')).dropWhile
              (fun c => c = ',')).length ≤
              ((s.dropWhile isWordChar).dropWhile (fun c => c = ' ')).length :=
            length_dropWhile_le _ _
          have e4 : ((((s.dropWhile isWordChar).dropWhile (fun c => c = ' ')).dropWhile
              (fun c => c = ',')).dropWhile (fun c => c = ' ')).length ≤
              (((s.dropWhile isWordChar).dropWhile (fun c => c = ' ')).dropWhile
              (fun c => c = ',')).length := length_dropWhile_le _ _
          have e5 : ((((s.dropWhile isWordChar).dropWhile (fun c => c = ' ')).dropWhile
              (fun c => c = ',')).dropWhile (fun c => c = ' ')).length = r5.length + 2 := by
            rw [hm]; simp
          have e6 : r5.length = i3.length + 2 + a3.length := by
            rw [findAnyCloserCore_eq hf]; simp; omega
          rw [← hr]
          omega
      · rw [if_neg h12] at h; simp at h

/-- The line-start scan for items also shrinks the remaining text. -/
theorem findConfigItemsAux_some : ∀ {s lbl : List Char} {comma : Bool} {itx rest : List Char},
    findConfigItemsAux s = some (lbl, comma, itx, rest) → lbl ≠ [] ∧ rest.length < s.length := by
  intro s
  induction s with
  | nil => intro lbl comma itx rest h; simp [findConfigItemsAux] at h
  | cons c cs ih =>
    intro lbl comma itx rest h
    simp only [findConfigItemsAux] at h
    by_cases hc : c = '\n'
    · rw [if_pos hc] at h
      cases hm : matchItemsAt cs with
      | some x =>
        rw [hm] at h
        simp only [Option.some.injEq] at h
        subst h
        have := matchItemsAt_some hm
        exact ⟨this.1, Nat.lt_trans this.2 (by simp)⟩
      | none =>
        rw [hm] at h
        have := ih h
        exact ⟨this.1, Nat.lt_trans this.2 (by simp)⟩
    · rw [if_neg hc] at h
      have := ih h
      exact ⟨this.1, Nat.lt_trans this.2 (by simp)⟩

/-- A successful `findConfigItems` strictly shrinks the remaining text. -/
theorem findConfigItems_some {s lbl : List Char} {comma : Bool} {itx rest : List Char}
    (h : findConfigItems s = some (lbl, comma, itx, rest)) : lbl ≠ [] ∧ rest.length < s.length := by
  unfold findConfigItems at h
  cases hm : matchItemsAt s with
  | some x =>
    rw [hm] at h
    simp only [Option.some.injEq] at h
    subst h
    exact matchItemsAt_some hm
  | none =>
    rw [hm] at h
    exact findConfigItemsAux_some h

/-- Fuel beyond the text's length does not change `scanItemsFuel`. -/
theorem scanItemsFuel_congr : ∀ n m s, s.length ≤ n → s.length ≤ m →
    scanItemsFuel n s = scanItemsFuel m s := by
  intro n
  induction n with
  | zero =>
    intro m s hn _
    have : s = [] := List.length_eq_zero.mp (Nat.le_zero.mp hn)
    subst this
    cases m with
    | zero => rfl
    | succ m2 => rfl
  | succ n2 ih =>
    intro m s hn hm
    cases hf : findConfigItems s with
    | none =>
      cases m with
      | zero =>
        have : s = [] := List.length_eq_zero.mp (Nat.le_zero.mp hm)
        subst this; rfl
      | succ m2 => simp only [scanItemsFuel, hf]
    | some x =>
      obtain ⟨l, comma, itx, rest⟩ := x
      have hlt := (findConfigItems_some hf).2
      cases m with
      | zero =>
        have : s = [] := List.length_eq_zero.mp (Nat.le_zero.mp hm)
        subst this; simp at hlt
      | succ m2 =>
        simp only [scanItemsFuel, hf]
        rw [ih m2 rest (by omega) (by omega)]

/-- The one-step unfolding law of `scanItems`, showing the separator
defaulting: a comma exactly when the comma marker was present, else a
space. -/
theorem scanItems_unfold (s : List Char) : scanItems s =
    (match findConfigItems s with
     | some (l, comma, itx, rest) =>
       (l, SepListToStringSlice itx (if comma then [','] else [' '])) :: scanItems rest
     | none => []) := by
  cases hf : findConfigItems s with
  | none =>
    cases hs : s.length with
    | zero => unfold scanItems; rw [hs]; rfl
    | succ k => unfold scanItems; rw [hs]; simp only [scanItemsFuel, hf]
  | some x =>
    obtain ⟨l, comma, itx, rest⟩ := x
    have hlt := (findConfigItems_some hf).2
    cases hs : s.length with
    | zero => omega
    | succ k =>
      unfold scanItems
      rw [hs]
      simp only [scanItemsFuel, hf]
      rw [scanItemsFuel_congr k rest.length rest (by omega) (by omega)]

/-- Dedenting never lengthens the text. -/
theorem rltAux_length : ∀ {s : List Char} {b : Bool} {out : List Char},
    rltAux s b = .ok out → out.length ≤ s.length := by
  intro s
  induction s with
  | nil =>
    intro b out h
    cases b with
    | false => simp [rltAux] at h
    | true => simp [rltAux] at h; simp [← h]
  | cons c r ih =>
    intro b out h
    simp only [rltAux] at h
    by_cases hc : c = '\n'
    · rw [if_pos hc] at h
      cases hr : rltAux r true with
      | ok out2 =>
        rw [hr] at h
        simp only [Except.ok.injEq] at h
        have := ih hr
        rw [← h]
        simp
        omega
      | error e => rw [hr] at h; simp at h
    · rw [if_neg hc] at h
      cases b with
      | true =>
        rw [if_pos rfl] at h
        by_cases ht : c = '\t'
        · rw [if_pos ht] at h
          have := ih h
          simp
          omega
        · rw [if_neg ht] at h; simp at h
      | false =>
        rw [if_neg (by simp)] at h
        cases hr : rltAux r false with
        | ok out2 =>
          rw [hr] at h
          simp only [Except.ok.injEq] at h
          have := ih hr
          rw [← h]
          simp
          omega
        | error e => rw [hr] at h; simp at h

/-- Dedenting a `(`-container interior never lengthens it. -/
theorem removeLeadingTabs_length {s out : List Char}
    (h : removeLeadingTabs s = .ok out) : out.length ≤ s.length :=
  rltAux_length h

/-- Congruence for one `handleConfigData` iteration: the step only
invokes its recursion argument on strictly shorter texts, so two
recursion arguments agreeing on shorter texts give equal steps. -/
theorem hcdStep_congr (f g : List Char → List Char → List CfgRec × Option CfgError)
    (lp s : List Char)
    (h : ∀ lp2 s2, s2.length < s.length → f lp2 s2 = g lp2 s2) :
    hcdStep f lp s = hcdStep g lp s := by
  unfold hcdStep
  by_cases hs0 : s = []
  · rw [if_pos hs0, if_pos hs0]
  · rw [if_neg hs0, if_neg hs0]
    dsimp only
    cases hst : findConfigSt s with
    | none => rfl
    | some x =>
      obtain ⟨lbl, comma, op, rest⟩ := x
      have hrest := (findConfigSt_some hst).2
      dsimp only
      cases hend : findEnd rest with
      | none => rfl
      | some y =>
        obtain ⟨interior, closeCh, after⟩ := y
        have hsplit : rest = interior ++ '\n' :: closeCh :: after :=
          findAnyCloserCore_eq hend
        have hlen : interior.length + 2 + after.length = rest.length := by
          rw [hsplit]; simp; omega
        dsimp only
        by_cases h1 : closeCh ≠ matching op
        · rw [if_pos h1, if_pos h1]
        · rw [if_neg h1, if_neg h1]
          by_cases h2 : op ≠ '{' ∧ comma = true
          · rw [if_pos h2, if_pos h2]
          · rw [if_neg h2, if_neg h2]
            by_cases h3 : op = '('
            · rw [if_pos h3, if_pos h3]
              cases hrlt : removeLeadingTabs (interior ++ ['\n']) with
              | error e => rfl
              | ok st =>
                dsimp only
                have hstle : st.length ≤ interior.length + 1 := by
                  have := removeLeadingTabs_length hrlt
                  simp at this
                  omega
                rw [h (compose lp lbl) st (by omega), h lp after (by omega)]
            · rw [if_neg h3, if_neg h3]
              by_cases h4 : op = '<'
              · rw [if_pos h4, if_pos h4, h lp after (by omega)]
              · rw [if_neg h4, if_neg h4]
                by_cases h5 : op = '['
                · rw [if_pos h5, if_pos h5, h lp after (by omega)]
                · rw [if_neg h5, if_neg h5, h lp after (by omega)]

/-- The empty text yields nothing at any fuel. -/
theorem hcdFuel_nil (n : Nat) (lp : List Char) : hcdFuel n lp [] = ([], none) := by
  cases n with
  | zero => rfl
  | succ n2 => rfl

/-- Fuel at least the text's length pins down `hcdFuel`: every loop
iteration and recursion strictly shrinks the text. -/
theorem hcdFuel_congr : ∀ n m lp s, s.length ≤ n → s.length ≤ m →
    hcdFuel n lp s = hcdFuel m lp s := by
  intro n
  induction n with
  | zero =>
    intro m lp s hn _
    have : s = [] := List.length_eq_zero.mp (Nat.le_zero.mp hn)
    subst this
    rw [hcdFuel_nil, hcdFuel_nil]
  | succ n2 ih =>
    intro m lp s hn hm
    by_cases hs0 : s = []
    · subst hs0
      rw [hcdFuel_nil, hcdFuel_nil]
    · have hpos : 1 ≤ s.length := by
        cases s with
        | nil => exact absurd rfl hs0
        | cons c r => simp
      cases m with
      | zero => omega
      | succ m2 =>
        show hcdStep (hcdFuel n2) lp s = hcdStep (hcdFuel m2) lp s
        exact hcdStep_congr _ _ lp s (fun lp2 s2 h2 => ih m2 lp2 s2 (by omega) (by omega))

/-- Any fuel at least the text's length computes `handleConfigData`. -/
theorem hcdFuel_eq (n : Nat) (lp s : List Char) (hn : s.length ≤ n) :
    hcdFuel n lp s = handleConfigData lp s :=
  hcdFuel_congr n s.length lp s hn (Nat.le_refl _)

/-- The one-step unfolding law of `handleConfigData`: it satisfies the
loop equation of cfg.go with itself in the two recursive positions. -/
theorem handleConfigData_unfold (lp s : List Char) :
    handleConfigData lp s = hcdStep handleConfigData lp s := by
  by_cases hs0 : s = []
  · subst hs0
    show hcdFuel 0 lp [] = hcdStep handleConfigData lp []
    rw [hcdFuel_nil]
    rfl
  · have hpos : 1 ≤ s.length := by
      cases s with
      | nil => exact absurd rfl hs0
      | cons c r => simp
    have h1 : handleConfigData lp s = hcdStep (hcdFuel (s.length - 1)) lp s := by
      unfold handleConfigData
      cases hsl : s.length with
      | zero => omega
      | succ k =>
        simp only [hcdFuel]
        have : k + 1 - 1 = k := by omega
        rw [this]
    rw [h1]
    exact hcdStep_congr _ _ lp s
      (fun lp2 s2 h2 => hcdFuel_eq (s.length - 1) lp2 s2 (by omega))

/-- C1: for the input text `d (\n\tx := 1\n\tsub (\n\t\ty := 2\n\t)\n)\n`,
scanData (HandleConfigData) emits exactly the records
(Value, `d:x`, [`1`]) then (Value, `d:sub:y`, [`2`]) in this order and
returns no error: one leading tab is stripped from every interior line
at each nesting level and the dedented text is rescanned recursively
with the extended label path. -/
theorem c1_nested_data_scan :
    HandleConfigData "d (\n\tx := 1\n\tsub (\n\t\ty := 2\n\t)\n)\n".toList =
      ([⟨ConfigType.Value, "d:x".toList, ["1".toList]⟩,
        ⟨ConfigType.Value, "d:sub:y".toList, ["2".toList]⟩], none) := by
  decide

/-- C9: the Value pre-pass re-runs over the remaining text on every
loop iteration, so a value line after a closed container is emitted
once per iteration: for `a <\nz\n>\nv := 1\n` the record
(Value, `v`, [`1`]) appears twice in the emitted sequence, around the
Block record. -/
theorem c9_duplicate_value_emission :
    HandleConfigData "a <\nz\n>\nv := 1\n".toList =
      ([⟨ConfigType.Value, "v".toList, ["1".toList]⟩,
        ⟨ConfigType.Block, "a".toList, ["z".toList]⟩,
        ⟨ConfigType.Value, "v".toList, ["1".toList]⟩], none) ∧
    (HandleConfigData "a <\nz\n>\nv := 1\n".toList).1.count
      ⟨ConfigType.Value, "v".toList, ["1".toList]⟩ = 2 := by
  constructor
  · decide
  · decide

/-- Dropping a prefix keeps membership. -/
theorem mem_of_mem_dropWhile {p : Char → Bool} {l : List Char} {c : Char}
    (h : c ∈ l.dropWhile p) : c ∈ l :=
  (List.dropWhile_sublist p).mem h

/-- Without a newline there is no line break. -/
theorem breakLine_none : ∀ {s : List Char}, '\n' ∉ s → breakLine s = none := by
  intro s
  induction s with
  | nil => intro _; rfl
  | cons c r ih =>
    intro h
    have hc : c ≠ '\n' := by
      intro he
      exact h (by rw [he]; exact List.mem_cons_self _ _)
    have hr : '\n' ∉ r := fun hm => h (List.mem_cons_of_mem _ hm)
    simp only [breakLine]
    rw [if_neg (by exact fun he => hc he), ih hr]

/-- A successful value match consumes a newline of its input. -/
theorem matchValueAt_newline {s : List Char} {x : List Char × List Char × List Char}
    (h : matchValueAt s = some x) : '\n' ∈ s := by
  unfold matchValueAt at h
  by_cases h0 : s.takeWhile isWordChar = []
  · simp [h0] at h
  · rw [if_neg h0] at h
    rcases hm : (s.dropWhile isWordChar).dropWhile (fun c => c = ' ') with _ | ⟨c1, _ | ⟨c2, r3⟩⟩ <;>
      rw [hm] at h <;> dsimp only at h
    · simp at h
    · simp at h
    · by_cases h12 : c1 = ':' ∧ c2 = '='
      · rw [if_pos h12] at h
        cases hb : breakLine (r3.dropWhile (fun c => c = ' ')) with
        | none => rw [hb] at h; simp at h
        | some p =>
          have hmem : '\n' ∈ r3.dropWhile (fun c => c = ' ') := by
            obtain ⟨line, rest⟩ := p
            rw [breakLine_eq hb]
            simp
          have h1 : '\n' ∈ (s.dropWhile isWordChar).dropWhile (fun c => c = ' ') := by
            rw [hm]
            exact List.mem_cons_of_mem _ (List.mem_cons_of_mem _ (mem_of_mem_dropWhile hmem))
          exact mem_of_mem_dropWhile (mem_of_mem_dropWhile h1)
      · rw [if_neg h12] at h; simp at h

/-- A successful opener match consumes a newline of its input. -/
theorem matchOpenerAt_newline {s : List Char} {x : List Char × Bool × Char × List Char}
    (h : matchOpenerAt s = some x) : '\n' ∈ s := by
  unfold matchOpenerAt at h
  by_cases h0 : s.takeWhile isWordChar = []
  · simp [h0] at h
  · rw [if_neg h0] at h
    dsimp only at h
    rcases hm : ((((s.dropWhile isWordChar).dropWhile (fun c => c = ' ')).dropWhile
        (fun c => c = ',')).dropWhile (fun c => c = ' ')) with _ | ⟨c, r5⟩ <;>
      rw [hm] at h <;> dsimp only at h
    · simp at h
    · by_cases hop : isOpenerChar c = true
      · rw [if_pos hop] at h
        rcases hm2 : r5.dropWhile (fun c => c = ' ') with _ | ⟨c2, r6⟩ <;>
          rw [hm2] at h <;> dsimp only at h
        · simp at h
        · by_cases hnl : c2 = '\n'
          · have hmem : '\n' ∈ r5.dropWhile (fun c => c = ' ') := by
              rw [hm2, ← hnl]
              exact List.mem_cons_self _ _
            have h1 : '\n' ∈ ((((s.dropWhile isWordChar).dropWhile (fun c => c = ' ')).dropWhile
                (fun c => c = ',')).dropWhile (fun c => c = ' ')) := by
              rw [hm]
              exact List.mem_cons_of_mem _ (mem_of_mem_dropWhile hmem)
            exact mem_of_mem_dropWhile (mem_of_mem_dropWhile
              (mem_of_mem_dropWhile (mem_of_mem_dropWhile h1)))
          · rw [if_neg hnl] at h; simp at h
      · rw [if_neg hop] at h; simp at h

/-- Without a newline there is no value match at any line start. -/
theorem findConfigValue_none {s : List Char} (h : '\n' ∉ s) :
    findConfigValue s = none := by
  unfold findConfigValue
  cases hm : matchValueAt s with
  | some x => exact absurd (matchValueAt_newline hm) h
  | none =>
    clear hm
    induction s with
    | nil => rfl
    | cons c r ih =>
      have hc : c ≠ '\n' := fun he => h (by rw [he]; exact List.mem_cons_self _ _)
      have hr : '\n' ∉ r := fun hm2 => h (List.mem_cons_of_mem _ hm2)
      simp only [findConfigValueAux]
      rw [if_neg (by exact fun he => hc he)]
      exact ih hr

/-- Without a newline there is no construct opener at any line start. -/
theorem findConfigSt_none {s : List Char} (h : '\n' ∉ s) :
    findConfigSt s = none := by
  unfold findConfigSt
  cases hm : matchOpenerAt s with
  | some x => exact absurd (matchOpenerAt_newline hm) h
  | none =>
    clear hm
    induction s with
    | nil => rfl
    | cons c r ih =>
      have hc : c ≠ '\n' := fun he => h (by rw [he]; exact List.mem_cons_self _ _)
      have hr : '\n' ∉ r := fun hm2 => h (List.mem_cons_of_mem _ hm2)
      simp only [findConfigStAux]
      rw [if_neg (by exact fun he => hc he)]
      exact ih hr

/-- C10: a `label := value` line is only matched when it is terminated
by a newline character.  A text with no newline at all (such as the
exact text `foo := 42`) yields no value pair from scanValues, and the
same text is likewise invisible to scanData's Value pre-pass and whole
scan. -/
theorem c10_value_needs_newline (s : List Char) (h : '\n' ∉ s) :
    scanValues s = [] ∧ ∀ lp, handleConfigData lp s = ([], none) := by
  constructor
  · rw [scanValues_unfold, findConfigValue_none h]
  · intro lp
    rw [handleConfigData_unfold]
    unfold hcdStep
    by_cases hs0 : s = []
    · rw [if_pos hs0]
    · rw [if_neg hs0]
      dsimp only
      rw [findConfigSt_none h]
      dsimp only
      unfold valueRecs
      rw [scanValues_unfold, findConfigValue_none h]
      rfl

/-- Concrete instance of C10 at the exact text `foo := 42`. -/
theorem c10_witness :
    scanValues "foo := 42".toList = [] ∧
    handleConfigData [] "foo := 42".toList = ([], none) :=
  ⟨(c10_value_needs_newline "foo := 42".toList (by decide)).1,
   (c10_value_needs_newline "foo := 42".toList (by decide)).2 []⟩

/-- The empty text has no opener. -/
theorem findConfigSt_nil : findConfigSt [] = none := rfl

/-- C3: each of the three local structural failures of scanData — no
closing-delimiter line after an opener, a first closer line whose
character is not the opener's required match, or a comma marker on an
opener other than the brace — stops the scan at that iteration: the
result is exactly the Value pre-pass records of the current remaining
text, already delivered records are kept, the unparsed remainder is
discarded, and the returned error is nil. -/
theorem c3_local_failures_stop_scan (lp s lbl : List Char) (comma : Bool)
    (op : Char) (rest : List Char)
    (hst : findConfigSt s = some (lbl, comma, op, rest))
    (hfail : findEnd rest = none ∨
      (∃ i c a, findEnd rest = some (i, c, a) ∧ c ≠ matching op) ∨
      (∃ i a, findEnd rest = some (i, matching op, a) ∧ comma = true ∧ op ≠ '{')) :
    handleConfigData lp s = (valueRecs lp s, none) := by
  have hs0 : s ≠ [] := by
    intro he
    rw [he, findConfigSt_nil] at hst
    exact Option.noConfusion hst
  rw [handleConfigData_unfold]
  unfold hcdStep
  rw [if_neg hs0]
  dsimp only
  rw [hst]
  dsimp only
  rcases hfail with h1 | ⟨i, c, a, he, hc⟩ | ⟨i, a, he, hcomma, hop⟩
  · rw [h1]
  · rw [he]
    dsimp only
    rw [if_pos hc]
  · rw [he]
    dsimp only
    rw [if_neg (by simp), if_pos ⟨hop, hcomma⟩]

/-- Concrete instance of C3: a block opener whose closer line never
comes stops the scan, keeps the already emitted Value record, and
returns nil. -/
theorem c3_witness :
    handleConfigData [] "v := 1\nb <\nz\n".toList =
      ([⟨ConfigType.Value, "v".toList, ["1".toList]⟩], none) := by
  have h := c3_local_failures_stop_scan [] "v := 1\nb <\nz\n".toList
    "b".toList false '<' "z\n".toList (by decide) (Or.inl (by decide))
  rw [h]
  decide

/-- C5: in each pass of scanData over the current remaining text, the
Value pre-pass records — every `label := value` line matched anywhere
in the remainder, with the current label-path context composed in —
come before every other record produced in that pass, wherever the next
container's opener sits. -/
theorem c5_value_prepass_first (lp s : List Char) :
    ∃ tail, (handleConfigData lp s).1 = valueRecs lp s ++ tail := by
  rw [handleConfigData_unfold]
  unfold hcdStep
  by_cases hs0 : s = []
  · rw [if_pos hs0]
    refine ⟨[], ?_⟩
    rw [hs0]
    rfl
  · rw [if_neg hs0]
    dsimp only
    cases hst : findConfigSt s with
    | none => exact ⟨[], by simp⟩
    | some x =>
      obtain ⟨lbl, comma, op, rest⟩ := x
      dsimp only
      cases hend : findEnd rest with
      | none => exact ⟨[], by simp⟩
      | some y =>
        obtain ⟨interior, closeCh, after⟩ := y
        dsimp only
        by_cases h1 : closeCh ≠ matching op
        · rw [if_pos h1]; exact ⟨[], by simp⟩
        · rw [if_neg h1]
          by_cases h2 : op ≠ '{' ∧ comma = true
          · rw [if_pos h2]; exact ⟨[], by simp⟩
          · rw [if_neg h2]
            by_cases h3 : op = '('
            · rw [if_pos h3]
              cases hrlt : removeLeadingTabs (interior ++ ['\n']) with
              | error e => exact ⟨[], by simp⟩
              | ok st =>
                dsimp only
                cases hrec : handleConfigData (compose lp lbl) st with
                | mk rs err =>
                  cases err with
                  | some e => exact ⟨rs, by simp⟩
                  | none =>
                    dsimp only
                    exact ⟨rs ++ (handleConfigData lp after).1, by simp⟩
            · rw [if_neg h3]
              by_cases h4 : op = '<'
              · rw [if_pos h4]
                exact ⟨⟨ConfigType.Block, compose lp lbl, [interior]⟩ ::
                  (handleConfigData lp after).1, by simp⟩
              · rw [if_neg h4]
                by_cases h5 : op = '['
                · rw [if_pos h5]
                  exact ⟨⟨ConfigType.Lines, compose lp lbl, ListToStringSlice interior⟩ ::
                    (handleConfigData lp after).1, by simp⟩
                · rw [if_neg h5]
                  exact ⟨⟨ConfigType.Items, compose lp lbl,
                    SepListToStringSlice interior (if comma then [','] else [' '])⟩ ::
                    (handleConfigData lp after).1, by simp⟩

/-- C8: scanData terminates on every finite input.  The remaining text
strictly shrinks at each loop iteration (opener and closer lines are
consumed) and each recursion works on a dedented interior strictly
shorter than the enclosing text, so fuel equal to the input's length
already computes the fixed point: any larger fuel gives the same
result. -/
theorem c8_termination :
    (∀ n lp s, s.length ≤ n → hcdFuel n lp s = handleConfigData lp s) ∧
    (∀ s lbl comma op rest, findConfigSt s = some (lbl, comma, op, rest) →
      rest.length < s.length) ∧
    (∀ rest interior c after, findEnd rest = some (interior, c, after) →
      after.length + 2 ≤ rest.length ∧ interior.length + 2 ≤ rest.length) ∧
    (∀ x st, removeLeadingTabs x = .ok st → st.length ≤ x.length) := by
  refine ⟨fun n lp s h => hcdFuel_eq n lp s h,
    fun s lbl comma op rest h => (findConfigSt_some h).2,
    fun rest interior c after h => ?_,
    fun x st h => removeLeadingTabs_length h⟩
  have := findAnyCloserCore_eq h
  constructor
  · rw [this]; simp
  · rw [this]; simp

/-- Concrete instance of C8: double the needed fuel changes nothing. -/
theorem c8_witness :
    hcdFuel 28 [] "d (\n\tx := 1\n)\n".toList =
      handleConfigData [] "d (\n\tx := 1\n)\n".toList :=
  c8_termination.1 28 [] "d (\n\tx := 1\n)\n".toList (by decide)

/-- Newline splitting always yields at least one segment. -/
theorem splitOnNL_ne_nil : ∀ s : List Char, splitOnNL s ≠ [] := by
  intro s
  cases s with
  | nil => simp [splitOnNL]
  | cons c r =>
    simp only [splitOnNL]
    by_cases hc : c = '\n'
    · rw [if_pos hc]; simp
    · rw [if_neg hc]
      cases splitOnNL r with
      | nil => simp
      | cons l ls => simp

/-- When dedenting succeeds, every complete line of the input was blank
or tab-led.  The state Boolean is true at a line start; in mid-line
state the current (first) segment is exempt. -/
theorem rltAux_ok_good : ∀ {s : List Char} {b : Bool} {out : List Char},
    rltAux s b = .ok out →
    ∀ l ∈ (if b then (splitOnNL s).dropLast else ((splitOnNL s).tail).dropLast),
      goodLine l = true := by
  intro s
  induction s with
  | nil =>
    intro b out h l hl
    cases b with
    | false => simp [rltAux] at h
    | true => simp [splitOnNL] at hl
  | cons c r ih =>
    intro b out h l hl
    obtain ⟨seg, segs, hsp⟩ : ∃ seg segs, splitOnNL r = seg :: segs := by
      cases h2 : splitOnNL r with
      | nil => exact absurd h2 (splitOnNL_ne_nil r)
      | cons a as => exact ⟨a, as, rfl⟩
    simp only [rltAux] at h
    by_cases hc : c = '\n'
    · rw [if_pos hc] at h
      cases hr : rltAux r true with
      | error e => rw [hr] at h; simp at h
      | ok out2 =>
        have hsplit : splitOnNL (c :: r) = [] :: splitOnNL r := by
          simp only [splitOnNL]
          rw [if_pos hc]
        rw [hsplit, hsp] at hl
        cases b with
        | true =>
          rcases List.mem_cons.mp hl with h1 | h2
          · rw [h1]; rfl
          · have := ih hr
            rw [if_pos rfl, hsp] at this
            exact this l h2
        | false =>
          have := ih hr
          rw [if_pos rfl, hsp] at this
          exact this l hl
    · rw [if_neg hc] at h
      have hsplit : splitOnNL (c :: r) = (c :: seg) :: segs := by
        simp only [splitOnNL]
        rw [if_neg hc, hsp]
      cases b with
      | true =>
        rw [if_pos rfl] at h
        by_cases ht : c = '\t'
        · rw [if_pos ht] at h
          rw [if_pos rfl, hsplit] at hl
          cases segs with
          | nil => simp at hl
          | cons s2 ss =>
            rcases List.mem_cons.mp hl with h1 | h2
            · rw [h1, goodLine, ht]; simp
            · have := ih (b := false) h
              rw [if_neg (by simp), hsp] at this
              exact this l h2
        · rw [if_neg ht] at h; simp at h
      | false =>
        rw [if_neg (by simp)] at h
        cases hr : rltAux r false with
        | error e => rw [hr] at h; simp at h
        | ok out2 =>
          rw [if_neg (by simp), hsplit] at hl
          have := ih (b := false) hr
          rw [if_neg (by simp), hsp] at this
          exact this l hl

/-- C2: a `(`-container whose interior holds a line that is neither
blank nor tab-led makes the scan fail with ErrIllegalDataBlock, and the
failure propagates out of the whole call from any recursion depth.  The
conjuncts: the spec's concrete example; any dedent input with a bad
complete line fails with exactly that error; a failing dedent of the
first construct makes `handleConfigData` return the error beside the
already emitted records; an error inside the recursion re-emerges
unchanged from the enclosing call. -/
theorem c2_illegal_data_block :
    HandleConfigData "d (\nx := 1\n)\n".toList =
      ([⟨ConfigType.Value, "x".toList, ["1".toList]⟩], some CfgError.illegalDataBlock) ∧
    (∀ s : List Char, (∃ l ∈ (splitOnNL s).dropLast, goodLine l = false) →
      removeLeadingTabs s = .error CfgError.illegalDataBlock) ∧
    (∀ lp s lbl rest interior after e, findConfigSt s = some (lbl, false, '(', rest) →
      findEnd rest = some (interior, ')', after) →
      removeLeadingTabs (interior ++ ['\n']) = .error e →
      handleConfigData lp s = (valueRecs lp s, some e)) ∧
    (∀ lp s lbl rest interior after st e,
      findConfigSt s = some (lbl, false, '(', rest) →
      findEnd rest = some (interior, ')', after) →
      removeLeadingTabs (interior ++ ['\n']) = .ok st →
      (handleConfigData (compose lp lbl) st).2 = some e →
      (handleConfigData lp s).2 = some e) := by
  refine ⟨by decide, ?_, ?_, ?_⟩
  · intro s hbad
    obtain ⟨l, hl, hbadl⟩ := hbad
    cases hres : removeLeadingTabs s with
    | ok out =>
      have := rltAux_ok_good (s := s) (b := true) hres
      rw [if_pos rfl] at this
      rw [this l hl] at hbadl
      exact Bool.noConfusion hbadl
    | error e => cases e; rfl
  · intro lp s lbl rest interior after e hst hend hrlt
    have hs0 : s ≠ [] := by
      intro he
      rw [he, findConfigSt_nil] at hst
      exact Option.noConfusion hst
    rw [handleConfigData_unfold]
    unfold hcdStep
    rw [if_neg hs0]
    dsimp only
    rw [hst]
    dsimp only
    rw [hend]
    dsimp only
    rw [if_neg (by decide), if_neg (by simp), if_pos rfl, hrlt]
  · intro lp s lbl rest interior after st e hst hend hrlt hrec
    have hs0 : s ≠ [] := by
      intro he
      rw [he, findConfigSt_nil] at hst
      exact Option.noConfusion hst
    rw [handleConfigData_unfold]
    unfold hcdStep
    rw [if_neg hs0]
    dsimp only
    rw [hst]
    dsimp only
    rw [hend]
    dsimp only
    rw [if_neg (by decide), if_neg (by simp), if_pos rfl, hrlt]
    dsimp only
    cases hcall : handleConfigData (compose lp lbl) st with
    | mk rs err =>
      rw [hcall] at hrec
      dsimp only at hrec
      rw [hrec]

/-- Concrete instance of C2: the bad line makes the dedent fail and the
whole scan return ErrIllegalDataBlock. -/
theorem c2_witness :
    removeLeadingTabs "x := 1\n".toList = .error CfgError.illegalDataBlock ∧
    handleConfigData [] "d (\nx := 1\n)\n".toList =
      (valueRecs [] "d (\nx := 1\n)\n".toList, some CfgError.illegalDataBlock) :=
  ⟨c2_illegal_data_block.2.1 "x := 1\n".toList ⟨"x := 1".toList, by decide, by decide⟩,
   c2_illegal_data_block.2.2.1 [] "d (\nx := 1\n)\n".toList "d".toList
     "x := 1\n)\n".toList "x := 1".toList "\n".toList CfgError.illegalDataBlock
     (by decide) (by decide) (by rfl)⟩

/-- One-step unfolding of the closer search on a cons cell. -/
theorem findAnyCloserCore_cons (p : Char → Bool) (c : Char) (r : List Char) :
    findAnyCloserCore p (c :: r) =
      (if c = '\n' then
        match r with
        | c2 :: r2 =>
          if p c2 = true ∧ (r2 = [] ∨ r2.head? = some '\n') then some ([], c2, r2)
          else
            match findAnyCloserCore p r with
            | some (i, cc, a) => some (c :: i, cc, a)
            | none => none
        | [] => none
      else
        match findAnyCloserCore p r with
        | some (i, cc, a) => some (c :: i, cc, a)
        | none => none) := rfl

/-- The closer search after a newline, for an equality test, with the
stopping condition in propositional form. -/
theorem findCloserP_nl_cons (close c2 : Char) (r2 : List Char) :
    findAnyCloserCore (fun c => c = close) ('\n' :: c2 :: r2) =
      (if c2 = close ∧ (r2 = [] ∨ r2.head? = some '\n') then some ([], c2, r2)
      else
        match findAnyCloserCore (fun c => c = close) (c2 :: r2) with
        | some (i, cc, a) => some ('\n' :: i, cc, a)
        | none => none) := by
  rw [findAnyCloserCore_cons, if_pos rfl]
  simp only [decide_eq_true_eq]

/-- The closer search skips a character that is not a newline. -/
theorem findAnyCloserCore_cons_ne (p : Char → Bool) (c : Char) (r : List Char) (hc : c ≠ '\n') :
    findAnyCloserCore p (c :: r) =
      (match findAnyCloserCore p r with
       | some (i, cc, a) => some (c :: i, cc, a)
       | none => none) := by
  rw [findAnyCloserCore_cons, if_neg hc]

/-- One-step unfolding of the closer-line test after a newline. -/
theorem hasCloserLine_nl_cons (close c2 : Char) (r2 : List Char) :
    hasCloserLine close ('\n' :: c2 :: r2) =
      (if c2 = close ∧ (r2 = [] ∨ r2.head? = some '\n') then true
      else hasCloserLine close (c2 :: r2)) := rfl

/-- The closer-line test skips a character that is not a newline. -/
theorem hasCloserLine_cons_ne (close c : Char) (r : List Char) (hc : c ≠ '\n') :
    hasCloserLine close (c :: r) = hasCloserLine close r := by
  cases r with
  | nil => simp only [hasCloserLine]; rw [if_neg hc]
  | cons c2 r2 => simp only [hasCloserLine]; rw [if_neg hc]

/-- With no closer line inside the interior, the closer search finds
exactly the appended closer line and captures the interior verbatim. -/
theorem findAnyCloserCore_append {close : Char} (hnl : close ≠ '\n') :
    ∀ {t : List Char} {r : List Char}, hasCloserLine close t = false →
    (r = [] ∨ r.head? = some '\n') →
    findAnyCloserCore (fun c => c = close) (t ++ '\n' :: close :: r) = some (t, close, r) := by
  intro t
  induction t with
  | nil =>
    intro r hT hr
    simp only [List.nil_append]
    rw [findCloserP_nl_cons, if_pos ⟨rfl, hr⟩]
  | cons c t2 ih =>
    intro r hT hr
    by_cases hc : c = '\n'
    · subst hc
      cases t2 with
      | nil =>
        simp only [List.nil_append, List.cons_append]
        rw [findCloserP_nl_cons]
        rw [if_neg (fun hcon => hnl hcon.1.symm)]
        have hrec := ih (r := r) rfl hr
        simp only [List.nil_append] at hrec
        rw [hrec]
      | cons c2 t3 =>
        have hT2 : hasCloserLine close (c2 :: t3) = false ∧
            ¬(c2 = close ∧ (t3 = [] ∨ t3.head? = some '\n')) := by
          rw [hasCloserLine_nl_cons] at hT
          by_cases hcond : c2 = close ∧ (t3 = [] ∨ t3.head? = some '\n')
          · rw [if_pos hcond] at hT
            exact Bool.noConfusion hT
          · rw [if_neg hcond] at hT
            exact ⟨hT, hcond⟩
        simp only [List.cons_append]
        rw [findCloserP_nl_cons]
        have hcond2 : ¬(c2 = close ∧ (t3 ++ '\n' :: close :: r = [] ∨
            (t3 ++ '\n' :: close :: r).head? = some '\n')) := by
          intro hcon
          apply hT2.2
          refine ⟨hcon.1, ?_⟩
          rcases hcon.2 with h1 | h2
          · exact absurd h1 (by simp)
          · cases t3 with
            | nil => exact Or.inl rfl
            | cons c3 t4 =>
              simp only [List.cons_append, List.head?_cons, Option.some.injEq] at h2
              exact Or.inr (by simp [h2])
        rw [if_neg hcond2]
        have hrec := ih (r := r) hT2.1 hr
        simp only [List.cons_append] at hrec
        rw [hrec]
    · have hT2 : hasCloserLine close t2 = false := by
        rw [hasCloserLine_cons_ne close c t2 hc] at hT
        exact hT
      simp only [List.cons_append]
      rw [findAnyCloserCore_cons_ne _ _ _ hc, ih hT2 hr]

/-- Splitting at a predicate boundary: a prefix satisfying the
predicate followed by a text whose head refutes it. -/
theorem takeWhile_dropWhile_append {p : Char → Bool} : ∀ {l r : List Char},
    (∀ c ∈ l, p c = true) → (∀ c, r.head? = some c → p c = false) →
    (l ++ r).takeWhile p = l ∧ (l ++ r).dropWhile p = r := by
  intro l
  induction l with
  | nil =>
    intro r _ hr
    simp only [List.nil_append]
    cases r with
    | nil => exact ⟨rfl, rfl⟩
    | cons c r2 =>
      have := hr c rfl
      constructor
      · rw [List.takeWhile_cons, this]
        simp
      · rw [List.dropWhile_cons, this]
        simp
  | cons a l2 ih =>
    intro r hl hr
    have ha : p a = true := hl a (List.mem_cons_self _ _)
    have hl2 : ∀ c ∈ l2, p c = true := fun c hc => hl c (List.mem_cons_of_mem _ hc)
    have := ih (r := r) hl2 hr
    constructor
    · simp only [List.cons_append, List.takeWhile_cons, ha]
      rw [this.1]
      simp
    · simp only [List.cons_append, List.dropWhile_cons, ha]
      rw [this.2]
      simp

/-- A well-formed block construct at the front of the text is matched
with the verbatim interior as payload. -/
theorem matchBlockAt_build (l sp t r : List Char)
    (hl : l ≠ []) (hlw : ∀ c ∈ l, isWordChar c = true)
    (hsp : ∀ c ∈ sp, c = ' ')
    (hT : hasCloserLine '>' t = false)
    (hr : r = [] ∨ r.head? = some '\n') :
    matchBlockAt (l ++ sp ++ '<' :: '\n' :: (t ++ '\n' :: '>' :: r)) = some (l, t, r) := by
  have hhead : ∀ c, (sp ++ '<' :: '\n' :: (t ++ '\n' :: '>' :: r)).head? = some c →
      isWordChar c = false := by
    intro c hc
    cases sp with
    | nil =>
      simp only [List.nil_append, List.head?_cons, Option.some.injEq] at hc
      rw [← hc]
      rfl
    | cons c0 sp2 =>
      simp only [List.cons_append, List.head?_cons, Option.some.injEq] at hc
      rw [← hc, hsp c0 (List.mem_cons_self _ _)]
      rfl
  have h1 := takeWhile_dropWhile_append (l := l) (r := sp ++ '<' :: '\n' :: (t ++ '\n' :: '>' :: r))
    hlw hhead
  have hsp2 : ∀ c ∈ sp, (fun c => decide (c = ' ')) c = true := by
    intro c hc
    simp [hsp c hc]
  have hhead2 : ∀ c, ('<' :: '\n' :: (t ++ '\n' :: '>' :: r)).head? = some c →
      (fun c => decide (c = ' ')) c = false := by
    intro c hc
    simp only [List.head?_cons, Option.some.injEq] at hc
    rw [← hc]
    rfl
  have h2 := takeWhile_dropWhile_append (l := sp) (r := '<' :: '\n' :: (t ++ '\n' :: '>' :: r))
    hsp2 hhead2
  unfold matchBlockAt
  rw [List.append_assoc, h1.1, if_neg hl, h1.2, h2.2]
  dsimp only
  rw [if_pos ⟨rfl, rfl⟩]
  rw [findAnyCloserCore_append (by decide) hT hr]

/-- C4: for every well-formed Block construct — a word-character label,
optional spaces, `<` ending its line, an interior with no closer line,
and the closing `>` line — the payload delivered by scanBlocks is the
interior text with exactly one trailing newline removed, byte for byte:
the scanned text literally contains the payload `t` followed by one
newline before the `>` line, so appending one newline to the payload
reconstructs the exact original interior, blank lines, per-line
whitespace and `#` lines included. -/
theorem c4_block_payload (l sp t r : List Char) (hl : l ≠ [])
    (hlw : ∀ c ∈ l, isWordChar c = true) (hsp : ∀ c ∈ sp, c = ' ')
    (hT : hasCloserLine '>' t = false) (hr : r = [] ∨ r.head? = some '\n') :
    scanBlocks (l ++ sp ++ '<' :: '\n' :: (t ++ '\n' :: '>' :: r)) = (l, t) :: scanBlocks r ∧
    l ++ sp ++ '<' :: '\n' :: (t ++ '\n' :: '>' :: r) =
      l ++ sp ++ '<' :: '\n' :: ((t ++ ['\n']) ++ '>' :: r) := by
  constructor
  · have hfb : findConfigBlock (l ++ sp ++ '<' :: '\n' :: (t ++ '\n' :: '>' :: r)) =
        some (l, t, r) := by
      unfold findConfigBlock
      rw [matchBlockAt_build l sp t r hl hlw hsp hT hr]
    rw [scanBlocks_unfold, hfb]
  · simp

/-- Concrete instance of C4: the spec's block example and its payload. -/
theorem c4_witness :
    scanBlocks "b <\nline one\n\nline two\n>\n".toList =
      [("b".toList, "line one\n\nline two".toList)] := by
  have h := (c4_block_payload "b".toList [' '] "line one\n\nline two".toList ['\n']
    (by decide) (by decide) (by decide) (by decide) (Or.inr rfl)).1
  have he : "b".toList ++ [' '] ++ '<' :: '\n' ::
      ("line one\n\nline two".toList ++ '\n' :: '>' :: ['\n']) =
      "b <\nline one\n\nline two\n>\n".toList := by decide
  rw [he] at h
  rw [h]
  decide

/-- C7: scanItems splits with the comma separator exactly when a comma
marker stands between the label and the opening brace, and with the
whitespace-run separator otherwise; both modes apply the same
blank-line and `#`-comment filtering (`cleanLines`) before splitting;
and the spec's items example yields its three items. -/
theorem c7_items_separator :
    (∀ s l comma itx rest, findConfigItems s = some (l, comma, itx, rest) →
      scanItems s =
        (l, SepListToStringSlice itx (if comma then [','] else [' '])) :: scanItems rest) ∧
    (∀ t sep, SepListToStringSlice t sep =
      (cleanLines t).flatMap
        (fun l => if sep = [','] then (splitOnComma l).map trimWS else wsFields l)) ∧
    scanItems "i , \x7b\n a, b\n c\n\x7d\n".toList =
      [("i".toList, ["a".toList, "b".toList, "c".toList])] := by
  refine ⟨?_, fun t sep => rfl, by decide⟩
  intro s l comma itx rest h
  rw [scanItems_unfold, h]

/-- Concrete instance of C7: the comma-marked example splits its
cleaned lines at commas. -/
theorem c7_witness :
    scanItems "i , \x7b\n a, b\n c\n\x7d\n".toList =
      ("i".toList, SepListToStringSlice " a, b\n c".toList [',']) ::
        scanItems "\n".toList :=
  c7_items_separator.1 "i , \x7b\n a, b\n c\n\x7d\n".toList "i".toList true
    " a, b\n c".toList "\n".toList (by decide)

/-- Joining two labels onto a nonempty chain. -/
theorem joinColon_cons_cons (a b : List Char) (rest : List (List Char)) :
    joinColon (a :: b :: rest) = a ++ ':' :: joinColon (b :: rest) := rfl

/-- Appending one label to a nonempty chain appends a colon segment. -/
theorem joinColon_append (c : List (List Char)) (l : List Char) (hc : c ≠ []) :
    joinColon (c ++ [l]) = joinColon c ++ ':' :: l := by
  induction c with
  | nil => exact absurd rfl hc
  | cons a c2 ih =>
    cases c2 with
    | nil => rfl
    | cons b c3 =>
      have e1 : (a :: b :: c3) ++ [l] = a :: b :: (c3 ++ [l]) := rfl
      rw [e1, joinColon_cons_cons]
      have e2 : b :: (c3 ++ [l]) = (b :: c3) ++ [l] := rfl
      rw [e2, ih (by simp), joinColon_cons_cons]
      simp

/-- A chain of nonempty labels joins to a nonempty path. -/
theorem joinColon_ne_nil (c : List (List Char)) (hc : ∀ x ∈ c, x ≠ []) (hne : c ≠ []) :
    joinColon c ≠ [] := by
  cases c with
  | nil => exact absurd rfl hne
  | cons a c2 =>
    cases c2 with
    | nil => exact hc a (List.mem_cons_self _ _)
    | cons b c3 =>
      rw [joinColon_cons_cons]
      simp

/-- Composing one more label onto a joined chain is joining the
extended chain. -/
theorem compose_joinColon (c : List (List Char)) (l : List Char) (hc : ∀ x ∈ c, x ≠ []) :
    compose (joinColon c) l = joinColon (c ++ [l]) := by
  cases c with
  | nil => rfl
  | cons a c2 =>
    rw [joinColon_append _ _ (by simp)]
    unfold compose
    rw [if_neg (joinColon_ne_nil _ hc (by simp))]

/-- The Value pre-pass renders structured records: composing the
joined chain with the value's own label is rendering the structured
path. -/
theorem valueRecs_spec (chain : List (List Char)) (s : List Char)
    (hc : ∀ x ∈ chain, x ≠ []) :
    valueRecs (joinColon chain) s = (specValueRecs chain s).map renderRec := by
  unfold valueRecs specValueRecs
  have hf : (fun p : List Char × List Char =>
        (⟨ConfigType.Value, compose (joinColon chain) p.1, [p.2]⟩ : CfgRec)) =
      (fun p : List Char × List Char =>
        renderRec ⟨ConfigType.Value, chain, p.1, [p.2]⟩) := by
    funext p
    unfold renderRec
    rw [compose_joinColon chain p.1 hc]
  rw [hf, List.map_map]
  rfl

/-- Refinement of the scan by its structured-path counterpart: under
the path context of a joined chain of nonempty labels, the scan emits
exactly the structured records of `hcdSpecFuel` — same order, same
payloads, same error — with each label path the rendering of that
record's true enclosing chain and own label. -/
theorem hcdFuel_spec : ∀ n (chain : List (List Char)) (s : List Char),
    (∀ x ∈ chain, x ≠ []) →
    hcdFuel n (joinColon chain) s =
      ((hcdSpecFuel n chain s).1.map renderRec, (hcdSpecFuel n chain s).2) := by
  intro n
  induction n with
  | zero => intro chain s hc; rfl
  | succ n2 ih =>
    intro chain s hc
    show hcdStep (hcdFuel n2) (joinColon chain) s =
      ((hcdSpecStep (hcdSpecFuel n2) chain s).1.map renderRec,
        (hcdSpecStep (hcdSpecFuel n2) chain s).2)
    unfold hcdStep hcdSpecStep
    by_cases hs0 : s = []
    · rw [if_pos hs0, if_pos hs0]
      rfl
    · rw [if_neg hs0, if_neg hs0]
      dsimp only
      have hval := valueRecs_spec chain s hc
      cases hst : findConfigSt s with
      | none => simp [hval]
      | some x =>
        obtain ⟨lbl, comma, op, rest⟩ := x
        have hlbl : lbl ≠ [] := (findConfigSt_some hst).1
        have hchain2 : ∀ x ∈ chain ++ [lbl], x ≠ [] := by
          intro x hx
          rcases List.mem_append.mp hx with h | h
          · exact hc x h
          · rw [List.mem_singleton.mp h]
            exact hlbl
        have hcomp : compose (joinColon chain) lbl = joinColon (chain ++ [lbl]) :=
          compose_joinColon chain lbl hc
        dsimp only
        cases hend : findEnd rest with
        | none => simp [hval]
        | some y =>
          obtain ⟨interior, closeCh, after⟩ := y
          dsimp only
          by_cases h1 : closeCh ≠ matching op
          · rw [if_pos h1, if_pos h1]
            simp [hval]
          · rw [if_neg h1, if_neg h1]
            by_cases h2 : op ≠ '{' ∧ comma = true
            · rw [if_pos h2, if_pos h2]
              simp [hval]
            · rw [if_neg h2, if_neg h2]
              by_cases h3 : op = '('
              · rw [if_pos h3, if_pos h3]
                cases hrlt : removeLeadingTabs (interior ++ ['\n']) with
                | error e => simp [hval]
                | ok st =>
                  dsimp only
                  cases hrec : hcdSpecFuel n2 (chain ++ [lbl]) st with
                  | mk srs serr =>
                    rw [hcomp, ih (chain ++ [lbl]) st hchain2, hrec]
                    dsimp only
                    cases serr with
                    | some e => simp [hval]
                    | none =>
                      dsimp only
                      cases hrec2 : hcdSpecFuel n2 chain after with
                      | mk srs2 serr2 =>
                        rw [ih chain after hc, hrec2]
                        dsimp only
                        simp [hval]
              · rw [if_neg h3, if_neg h3]
                by_cases h4 : op = '<'
                · rw [if_pos h4, if_pos h4]
                  cases hrec2 : hcdSpecFuel n2 chain after with
                  | mk srs2 serr2 =>
                    rw [ih chain after hc, hrec2]
                    dsimp only
                    simp [hval, renderRec, hcomp]
                · rw [if_neg h4, if_neg h4]
                  by_cases h5 : op = '['
                  · rw [if_pos h5, if_pos h5]
                    cases hrec2 : hcdSpecFuel n2 chain after with
                    | mk srs2 serr2 =>
                      rw [ih chain after hc, hrec2]
                      dsimp only
                      simp [hval, renderRec, hcomp]
                  · rw [if_neg h5, if_neg h5]
                    cases hrec2 : hcdSpecFuel n2 chain after with
                    | mk srs2 serr2 =>
                      rw [ih chain after hc, hrec2]
                      dsimp only
                      simp [hval, renderRec, hcomp]

/-- C6: the records emitted by scanData are exactly the records of the
structured-path scan `specScanData`, rendered: each record's label path
equals the labels of its enclosing Data containers, outermost to
innermost, followed by the record's own label, all joined by `:`
(`renderRec`); a record outside any Data container (empty chain) gets
exactly its own label, with no leading colon or empty prefix; and under
a nonempty ambient chain the same rendering is prefixed by it. -/
theorem c6_label_paths :
    (∀ s : List Char, HandleConfigData s =
      (((specScanData [] s).1).map renderRec, (specScanData [] s).2)) ∧
    (∀ r : SpecRec, (renderRec r).label = joinColon (r.chain ++ [r.own])) ∧
    (∀ (tp : ConfigType) (own : List Char) (data : List (List Char)),
      (renderRec ⟨tp, [], own, data⟩).label = own) ∧
    (∀ (chain : List (List Char)) (s : List Char), (∀ x ∈ chain, x ≠ []) →
      handleConfigData (joinColon chain) s =
        (((specScanData chain s).1).map renderRec, (specScanData chain s).2)) := by
  refine ⟨?_, fun r => rfl, fun tp own data => rfl, ?_⟩
  · intro s
    exact hcdFuel_spec s.length [] s (by simp)
  · intro chain s hchain
    exact hcdFuel_spec s.length chain s hchain

/-- Concrete instance of C6: under the ambient chain of the container
`d`, the scan of the dedented interior renders the structured records,
and evaluation shows the nested value record's path is exactly
`d:sub:y`. -/
theorem c6_witness :
    handleConfigData (joinColon ["d".toList]) "x := 1\nsub (\n\ty := 2\n)\n".toList =
      (((specScanData ["d".toList] "x := 1\nsub (\n\ty := 2\n)\n".toList).1).map renderRec,
        (specScanData ["d".toList] "x := 1\nsub (\n\ty := 2\n)\n".toList).2) ∧
    (specScanData ["d".toList] "x := 1\nsub (\n\ty := 2\n)\n".toList).1 =
      [⟨ConfigType.Value, ["d".toList], "x".toList, ["1".toList]⟩,
       ⟨ConfigType.Value, ["d".toList, "sub".toList], "y".toList, ["2".toList]⟩] :=
  ⟨c6_label_paths.2.2.2 ["d".toList] "x := 1\nsub (\n\ty := 2\n)\n".toList (by decide),
   by decide⟩

/-- Test vector of the repository's own test file: the value pairs of
the `valueTests` constant. -/
theorem testvec_values :
    scanValues "\napple := tree\nbanana := plant\nblank :=\ncherry := berry\ncashew := nut\n".toList =
      [("apple".toList, "tree".toList), ("banana".toList, "plant".toList),
       ("blank".toList, []), ("cherry".toList, "berry".toList),
       ("cashew".toList, "nut".toList)] := by
  decide

/-- Test vector of the repository's own test file: the comma-separated
`items2` list collapses blank and comment lines and splits at commas. -/
theorem testvec_items2 :
    scanItems "items2 , \x7b\n\tapple, banana\n\t\n\tcherry, date\n\t# elephant\n\tfig, grape\n\x7d\n".toList =
      [("items2".toList,
        ["apple".toList, "banana".toList, "cherry".toList, "date".toList,
         "fig".toList, "grape".toList])] := by
  decide

/-- Test vector of the repository's own test file: `block2` keeps its
whitespace-only interior line byte for byte. -/
theorem testvec_block2 :
    scanBlocks "block2<\nblock2 blah blah\n\t\nblah blah blah\n>\n".toList =
      [("block2".toList, "block2 blah blah\n\t\nblah blah blah".toList)] := by
  decide
